import Mathlib

/-!
Verification of the Linear B Diachronic Phonological Mapper.

This file gives a shallow embedding, in Lean 4, of the rule-based core of the
repository — the paradigm generator (`src/backend/core/generator.py`), the
morphological segmenter (`src/backend/core/morphology.py`), the tokenizer
(`src/backend/core/tokenizer.py`), the transcriber
(`src/backend/core/transcriber.py`) and the diachronic phonology engine
(`src/core/phonology.py`) — and proves or refutes the specified properties of
those engines.

Modelling conventions:
- Python strings are `List Char`; per-character operations (`replace` of a
  single separator, `lower`, slicing) become list functions defined below,
  each mirroring the Python semantics of the call sites.
- Python dicts that are built once by insertion are association lists in
  insertion order; `sorted(..., reverse=True)` (a stable sort) is the stable
  insertion sort `sortOnDesc`.
- Python floats here are the five fixed confidence constants 0.1 … 0.9; they
  are represented as exact rationals (`mkRat n 10`), which is faithful for
  every operation the program performs on them (construction and ordering).
- Fallible lookups return `Option`.
-/

namespace LinearB

/-! ## Python string primitives -/

/-- Python `s.replace('-', '')`: drop every separator hyphen. -/
def stripSep (l : List Char) : List Char := l.filter (fun c => c ≠ '-')

/-- Python `s.replace('∅', '')`: drop every null-ending marker. -/
def stripNull (l : List Char) : List Char := l.filter (fun c => c ≠ '∅')

/-- Python `str.lower` restricted to the character repertoire this program
manipulates: ASCII letters, the macron vowels and the Greek vowels that occur
in the vowel tables. All other characters are fixed points, as in Python. -/
def pyLowerChar (c : Char) : Char :=
  match c with
  | 'Ā' => 'ā' | 'Ē' => 'ē' | 'Ī' => 'ī' | 'Ō' => 'ō' | 'Ū' => 'ū'
  | 'Α' => 'α' | 'Ε' => 'ε' | 'Η' => 'η' | 'Ι' => 'ι' | 'Ο' => 'ο'
  | 'Υ' => 'υ' | 'Ω' => 'ω'
  | _ => c.toLower

/-- Python `s.lower()` on a whole string. -/
def pyLower (l : List Char) : List Char := l.map pyLowerChar

/-- The normalization used for attestation marking:
`form.replace('-', '').lower()`. -/
def normalizeForm (l : List Char) : List Char := pyLower (stripSep l)

/-- Python `'-'.join(syllables)`. -/
def hyphenJoin : List (List Char) → List Char
  | [] => []
  | [s] => s
  | s :: rest => s ++ '-' :: hyphenJoin rest

/-- Python `s.replace(old, new)` for an empty `old`: `new` is inserted before
every character and at the end (`'ab'.replace('', 'x') = 'xaxbx'`). -/
def pyReplaceEmpty (new : List Char) : List Char → List Char
  | [] => new
  | c :: rest => new ++ c :: pyReplaceEmpty new rest

/-- Python `s.replace(old, new)` for a non-empty `old`: replace every
non-overlapping occurrence, scanning left to right. -/
def pyReplacePos (old new : List Char) : List Char → List Char
  | [] => []
  | c :: rest =>
    if old ≠ [] ∧ old.isPrefixOf (c :: rest) then
      new ++ pyReplacePos old new ((c :: rest).drop old.length)
    else
      c :: pyReplacePos old new rest
termination_by s => s.length
decreasing_by
  · simp only [List.length_drop, List.length_cons]
    have : 1 ≤ old.length := List.length_pos.mpr (by tauto)
    omega
  · simp

/-- Python `s.replace(old, new)`. -/
def pyReplace (s old new : List Char) : List Char :=
  if old = [] then pyReplaceEmpty new s else pyReplacePos old new s

/-- Python `sub in s`: `sub` occurs as a contiguous substring of `s` (the
empty string occurs in every string). -/
def containsSub (sub : List Char) : List Char → Bool
  | [] => sub.isEmpty
  | s :: rest => sub.isPrefixOf (s :: rest) || containsSub sub rest

/-- Python `s.find(sub)`: index of the first occurrence, `none` for Python's
`-1`. -/
def pyFind (sub : List Char) (s : List Char) : Option Nat :=
  if sub.isPrefixOf s then some 0
  else
    match s with
    | [] => none
    | _ :: rest => (pyFind sub rest).map (· + 1)

/-! ## Paradigm generator (`src/backend/core/generator.py`) -/

/-- Vowel repertoire of `ParadigmGenerator._is_consonant`
(`'aeiouāēīōūαεηιουω'`). -/
def generatorVowels : List Char := "aeiouāēīōūαεηιουω".data

/-- `ParadigmGenerator._is_consonant`: a character is a consonant iff its
lowercased form is not in the vowel repertoire.  (The Python guard for the
empty string does not arise: we work per character.) -/
def isConsonant (c : Char) : Bool := !(generatorVowels.contains (pyLowerChar c))

/-- The three consonants Linear B writes word-finally (`'snr'`). -/
def snrChars : List Char := ['s', 'n', 'r']

/-- Geminate-consonant removal: the identical first loop of
`_apply_orthographic_rules` (rule 1) and of `_syllabify` (step 1).  When two
adjacent equal consonants occur, one copy is kept and the scan jumps past
both. -/
def removeGeminates : List Char → List Char
  | [] => []
  | [c] => [c]
  | a :: b :: rest =>
    if a = b ∧ isConsonant a then a :: removeGeminates rest
    else a :: removeGeminates (b :: rest)

/-- `ParadigmGenerator._apply_orthographic_rules`: remove geminate consonants,
then drop a final consonant unless it is `s`, `n` or `r`.  (Both orthography
flags are set to `True` in the constructor.) -/
def applyOrthographicRules (form : List Char) : List Char :=
  let r1 := removeGeminates form
  match r1.getLast? with
  | some c => if isConsonant c ∧ ¬ (c ∈ snrChars) then r1.dropLast else r1
  | none => r1

/-- The while-loop of `_syllabify` (step 2), translated case by case:
consonant+vowel makes a CV syllable; a bare vowel stands alone; a final
consonant survives alone when it is `s`/`n`/`r`; in a medial cluster CCV the
first consonant is skipped and C+V taken; a final two-consonant cluster is
kept whole when it contains an `s`/`n`/`r`, and any longer cluster ends the
scan, discarding the remainder (the Python code sets `i = len(form)`). -/
def syllabLoop : List Char → List (List Char)
  | [] => []
  | [a] =>
    if isConsonant a then (if a ∈ snrChars then [[a]] else []) else [[a]]
  | a :: b :: rest =>
    if isConsonant a ∧ ¬ isConsonant b then
      [a, b] :: syllabLoop rest
    else if ¬ isConsonant a then
      [a] :: syllabLoop (b :: rest)
    else
      match rest with
      | c :: rest2 =>
        if ¬ isConsonant c then [b, c] :: syllabLoop rest2
        else []
      | [] => if a ∈ snrChars ∨ b ∈ snrChars then [[a, b]] else []

/-- The module-level `_syllabify` of `generator.py`: empty input is returned
unchanged; otherwise geminates are removed, the form is broken into syllables
and the syllables are joined with hyphens. -/
def syllabify (form : List Char) : List Char :=
  if form = [] then form else hyphenJoin (syllabLoop (removeGeminates form))

/-- `InflectedForm` of `generator.py`.  Field names `case`, `number`, … carry
an `F` suffix because `case` is a Lean keyword; `form` and `attested` keep
their names. -/
structure InflectedForm where
  form : List Char
  caseF : Option (List Char) := none
  numberF : Option (List Char) := none
  genderF : Option String := none
  tenseF : Option String := none
  moodF : Option String := none
  personF : Option String := none
  attested : Bool := false
  reconstruction : Option (List Char) := none
  notes : List (List Char) := []
deriving DecidableEq

/-- The written text of `ParadigmGenerator._apply_ending` (the `declension`
argument is unused in the Python body and omitted): clean the ending, build
the phonological reconstruction, apply the orthographic rules, syllabify.
At runtime no call to it ever completes: its `self._syllabify(lb_form)`
raises `AttributeError`, because the class body ends before the dedented
module-level `_syllabify` (see `paradigmGeneratorClassAttrs` and claim C1).
This embedding therefore composes the module-level function the text names,
and models the authored algorithm, not a successful execution. -/
def applyEnding (stem ending : List Char) : List Char × List Char :=
  let endingClean := stripSep ending
  let reconstruction :=
    if endingClean = ['∅'] ∨ endingClean = [] then stem else stem ++ endingClean
  let lbForm := applyOrthographicRules reconstruction
  let syllabified := syllabify lbForm
  (syllabified, reconstruction)

/-- The attestation test of `generate_noun_paradigm`: the form verbatim, or
hyphen-stripped, or normalized against the normalized attested list. -/
def nounAttested (form : List Char) (attested : List (List Char)) : Bool :=
  attested.contains form ||
  attested.contains (stripSep form) ||
  (attested.map normalizeForm).contains (normalizeForm form)

/-- One declension's data: the `endings` table, mapping a `case_number` cell
key to its list of surface endings (`paradigms.json` schema). -/
structure DeclData where
  endings : List (List Char × List (List Char))
deriving DecidableEq

/-- Grammatical info attached to an ending in the reverse index
(`morphology.py`); also the shape of a `case_markers` value. -/
structure EndingInfo where
  caseName : Option (List Char) := none
  numberName : Option (List Char) := none
  declName : Option String := none
deriving DecidableEq

/-- The externally loaded paradigm table (`paradigms.json`): the
`noun_declensions` and `case_markers` sections, in file order. -/
structure Paradigms where
  noun_declensions : List (String × DeclData)
  case_markers : List (List Char × EndingInfo)
deriving DecidableEq

/-- Python `case_number.rsplit('_', 1)` unpacked into two names: split at the
last underscore; `none` models the `ValueError` when no underscore occurs. -/
def rsplitLastUnderscore (cs : List Char) : Option (List Char × List Char) :=
  let revSpan := cs.reverse.span (fun c => c ≠ '_')
  match revSpan.2 with
  | [] => none
  | _ :: restRev => some (restRev.reverse, revSpan.1.reverse)

/-- The written text of `ParadigmGenerator.generate_noun_paradigm`: an
unknown declension falls back to `o_stem_masculine`; each `case_number` cell
is parsed (a malformed cell is skipped — the `ValueError` is caught); each
listed ending yields one `InflectedForm` built by `_apply_ending` and
attestation-marked.  `none` models the `KeyError` when the (possibly
substituted) declension is absent from the table.  At runtime every call
that reaches an ending raises `AttributeError` inside `_apply_ending`
(claim C1), so no real execution produces these forms; the embedding
records the authored algorithm. -/
def generate_noun_paradigm (paradigms : Paradigms) (stem : List Char)
    (declension gender : String) (attested_forms : List (List Char)) :
    Option (List InflectedForm) :=
  let decl :=
    if (paradigms.noun_declensions.lookup declension).isSome then declension
    else "o_stem_masculine"
  match paradigms.noun_declensions.lookup decl with
  | none => none
  | some declData =>
    some (declData.endings.flatMap (fun cell =>
      match rsplitLastUnderscore cell.1 with
      | none => []
      | some caseNumber =>
        cell.2.map (fun ending =>
          let fr := applyEnding stem ending
          { form := fr.1
            caseF := some caseNumber.1
            numberF := some caseNumber.2
            genderF := some gender
            attested := nounAttested fr.1 attested_forms
            reconstruction := some fr.2
            notes := [("Declension: ".data ++ decl.data)] })))

/-- The fixed present-indicative-active ending table of
`generate_verb_paradigm`, in authored order. -/
def presentEndings : List (String × List Char) :=
  [("1sg", "-ō".data), ("2sg", "-eis".data), ("3sg", "-ei".data),
   ("1pl", "-omen".data), ("2pl", "-ete".data), ("3pl", "-onsi".data)]

/-- The written text of `_apply_verb_ending` — dead code, nested after the
`return` of the dedented module-level `_syllabify` and never defined at
runtime (claim C1): clean the ending, concatenate, apply orthography,
syllabify. -/
def applyVerbEnding (root ending : List Char) : List Char × List Char :=
  let endingClean := stripSep ending
  let reconstruction := root ++ endingClean
  let lbForm := applyOrthographicRules reconstruction
  (syllabify lbForm, reconstruction)

/-- The person label computed in `generate_verb_paradigm` from the first
character of the person/number key
(`'st' if '1' else 'nd' if '2' else 'rd'`). -/
def personLabel (personNum : String) : String :=
  let d := personNum.data.headD ' '
  (String.mk [d]) ++ (if d = '1' then "st" else if d = '2' then "nd" else "rd")

/-- The written text of `generate_verb_paradigm` — dead code, nested after
the `return` of the dedented module-level `_syllabify`, never an attribute
of `ParadigmGenerator`, so every real call raises `AttributeError`
(claim C1).  The authored body builds the six present-indicative-active
cells, each through `_apply_verb_ending`, marked attested when the form
occurs in the attested list verbatim or with its separators stripped. -/
def generate_verb_paradigm (root : List Char)
    (attested_forms : List (List Char)) : List InflectedForm :=
  presentEndings.map (fun pe =>
    let person := personLabel pe.1
    let number := if containsSub "sg".data pe.1.data then "singular" else "plural"
    let fr := applyVerbEnding root pe.2
    { form := fr.1
      tenseF := some "present"
      moodF := some "indicative"
      personF := some person
      numberF := some number.data
      attested := attested_forms.contains fr.1 ||
                  attested_forms.contains (stripSep fr.1)
      reconstruction := some fr.2 })

/-- The methods the class body of `ParadigmGenerator` actually defines.
In `generator.py` the `def _syllabify(self, ...)` on line 252 is written at
column 0, so the class body ends with `_is_consonant`; `_syllabify` becomes a
module-level function, and `generate_verb_paradigm`, `_apply_verb_ending` and
`generate_all_forms` become local functions nested after `_syllabify`'s
`return`, unreachable and never attributes of the class. -/
def paradigmGeneratorClassAttrs : List String :=
  ["__init__", "generate_noun_paradigm", "_apply_ending",
   "_apply_orthographic_rules", "_is_consonant"]

/-! ## Stable sorting

Python's `sorted(xs, key=k, reverse=True)` is a stable descending sort: among
elements with equal keys the original order is preserved.  `sortOnDesc` is a
left-fold insertion sort with exactly that semantics: each element is inserted
after every already-placed element whose key is at least its own. -/

/-- Insert `x` after every element whose key is ≥ `key x`. -/
def insertDescBy {α β : Type} [LinearOrder β] (key : α → β) (x : α) :
    List α → List α
  | [] => [x]
  | y :: rest =>
    if key x ≤ key y then y :: insertDescBy key x rest else x :: y :: rest

/-- Stable descending sort on a key, the semantics of Python
`sorted(xs, key=key, reverse=True)`. -/
def sortOnDesc {α β : Type} [LinearOrder β] (key : α → β) (l : List α) :
    List α :=
  l.foldl (fun acc x => insertDescBy key x acc) []

/-! ## Morphological segmenter (`src/backend/core/morphology.py`) -/

/-- `MorphologicalAnalysis` of `morphology.py`; the confidence is one of the
five fixed contract values, kept as an exact rational. -/
structure MorphologicalAnalysis where
  transliteration : List Char
  stem : List Char
  ending : List Char
  caseF : Option (List Char) := none
  numberF : Option (List Char) := none
  declF : Option String := none
  confidence : ℚ := 0
  notes : List (List Char) := []
deriving DecidableEq

/-- One lexicon entry, restricted to the fields `morphology.py` reads
(`word_data.get('stem', ...)` and `word_data.get('meaning', '')`). -/
structure LexEntry where
  stem : Option (List Char) := none
  meaning : Option (List Char) := none
deriving DecidableEq

/-- The ending index: ending string → list of grammatical readings, an
association list in dict insertion order (duplicate readings preserved). -/
abbrev EndingMap : Type := List (List Char × List EndingInfo)

/-- Appending a value under a key in a Python dict-of-lists: an existing key
keeps its position and grows its list; a new key is appended at the end. -/
def mapAppend (m : EndingMap) (k : List Char) (v : EndingInfo) : EndingMap :=
  match m with
  | [] => [(k, [v])]
  | (k0, vs) :: rest =>
    if k0 = k then (k0, vs ++ [v]) :: rest else (k0, vs) :: mapAppend rest k v

/-- The declension-table half of `_build_ending_map`: for every declension,
cell and listed ending, strip separators and the null marker, skip the ending
if nothing remains, otherwise register case/number/declension.  A cell key
with no underscore makes `case_num.rsplit('_', 1)` raise an uncaught
`ValueError` in the constructor, modelled as `none`. -/
def buildFromDeclensions : List (String × DeclData) → EndingMap →
    Option EndingMap
  | [], m => some m
  | (declName, dd) :: rest, m =>
    let step := dd.endings.foldl (fun acc cell =>
      match acc with
      | none => none
      | some m1 =>
        match rsplitLastUnderscore cell.1 with
        | none => none
        | some caseNumber =>
          some (cell.2.foldl (fun m2 ending =>
            let cleanEnding := stripNull (stripSep ending)
            if cleanEnding = [] then m2
            else
              mapAppend m2 cleanEnding
                { caseName := some caseNumber.1
                  numberName := some caseNumber.2
                  declName := some declName }) m1)) (some m)
    match step with
    | none => none
    | some m2 => buildFromDeclensions rest m2

/-- `MorphologicalAnalyzer._build_ending_map`: first the explicit
`case_markers` section (keys hyphen-stripped, no emptiness check), then the
declension tables. -/
def build_ending_map (paradigms : Paradigms) : Option EndingMap :=
  let m1 := paradigms.case_markers.foldl
    (fun m cm => mapAppend m (stripSep cm.1) cm.2) []
  buildFromDeclensions paradigms.noun_declensions m1

/-- `MorphologicalAnalyzer._analyze_known_word`: every registered non-empty
ending that suffixes the normalized form yields one analysis per reading at
confidence 0.9; when none matches, a single citation-form analysis at 0.8.
The result is stably sorted by confidence, descending. -/
def analyzeKnownWord (endingMap : EndingMap) (entry : LexEntry)
    (original normalized : List Char) : List MorphologicalAnalysis :=
  let stem := entry.stem.getD normalized
  let analyses := endingMap.flatMap (fun em =>
    if em.1.isSuffixOf normalized ∧ em.1 ≠ [] then
      em.2.map (fun info =>
        { transliteration := original
          stem := normalized.take (normalized.length - em.1.length)
          ending := em.1
          caseF := info.caseName
          numberF := info.numberName
          declF := info.declName
          confidence := mkRat 9 10
          notes := [("Attested in lexicon: ".data ++ entry.meaning.getD [])] })
    else [])
  let analyses :=
    if analyses.isEmpty then
      [{ transliteration := original
         stem := stem
         ending := []
         caseF := some "nominative".data
         numberF := some "singular".data
         confidence := mkRat 8 10
         notes := ["Citation form (no overt ending)".data] }]
    else analyses
  sortOnDesc (fun a => a.confidence) analyses

/-- The per-ending emission of `_segment_unknown_word`, in the longest-first
order of `sorted(self.ending_map.items(), key=..., reverse=True)` (a stable
sort, so equal lengths stay in registration order): a non-empty ending that
suffixes the form and leaves a stem of at least 2 characters yields one
analysis per registered reading, at confidence 0.6 for endings of length
≥ 2 and 0.4 otherwise. -/
def emitUnknownAnalyses (endingMap : EndingMap) (normalized : List Char) :
    List MorphologicalAnalysis :=
  (sortOnDesc (fun em => em.1.length) endingMap).flatMap (fun em =>
    if em.1.isSuffixOf normalized ∧ em.1 ≠ [] ∧
        ¬ (normalized.length - em.1.length < 2) then
      em.2.map (fun info =>
        { transliteration := normalized
          stem := normalized.take (normalized.length - em.1.length)
          ending := em.1
          caseF := info.caseName
          numberF := info.numberName
          declF := info.declName
          confidence := if 2 ≤ em.1.length then mkRat 6 10 else mkRat 4 10
          notes := ["Unattested word - analysis tentative".data] })
    else [])

/-- The 0.1 fallback analysis of `_segment_unknown_word`: empty ending, the
whole normalized form as stem. -/
def fallbackAnalysis (normalized : List Char) : MorphologicalAnalysis :=
  { transliteration := normalized
    stem := normalized
    ending := []
    confidence := mkRat 1 10
    notes := ["Cannot segment - no recognized ending".data] }

/-- `MorphologicalAnalyzer._segment_unknown_word`: emit the matches (see
`emitUnknownAnalyses`); with no match at all, a single fallback analysis at
0.1.  The result is stably sorted by confidence, descending. -/
def segmentUnknownWord (endingMap : EndingMap) (normalized : List Char) :
    List MorphologicalAnalysis :=
  let analyses := emitUnknownAnalyses endingMap normalized
  let analyses :=
    if analyses.isEmpty then [fallbackAnalysis normalized] else analyses
  sortOnDesc (fun a => a.confidence) analyses

/-- `MorphologicalAnalyzer.segment_word`: strip hyphens; a word present as a
literal key in the lexicon goes through the known-word path, any other word
through the unknown-word path. -/
def segment_word (lexicon : List (List Char × LexEntry))
    (endingMap : EndingMap) (transliteration : List Char) :
    List MorphologicalAnalysis :=
  let normalized := stripSep transliteration
  match lexicon.lookup transliteration with
  | some entry => analyzeKnownWord endingMap entry transliteration normalized
  | none => segmentUnknownWord endingMap normalized

/-- The unknown-word path as the specification states it (claim C5): every
registered ending longest-first, ties in registration order; skip splits
whose stem would be shorter than 2 characters; one analysis per matching
reading at 0.6 for endings of length ≥ 2 and 0.4 otherwise, in that emission
order; a single 0.1 fallback with empty ending and the whole form as stem
when nothing matches. -/
def unknownAnalysesSpec (endingMap : EndingMap) (normalized : List Char) :
    List MorphologicalAnalysis :=
  if emitUnknownAnalyses endingMap normalized = [] then
    [fallbackAnalysis normalized]
  else emitUnknownAnalyses endingMap normalized

/-! ## Tokenizer (`src/backend/core/tokenizer.py`) -/

/-- `TokenType` of `tokenizer.py`. -/
inductive TokenType where
  | SYLLABOGRAM | LOGOGRAM | NUMBER | WORD_DIVIDER | LINE_BREAK | UNKNOWN
deriving DecidableEq

/-- `Token` of `tokenizer.py`. -/
structure Token where
  char : Char
  type : TokenType
  position : Nat
deriving DecidableEq

/-- Linear B syllabogram range check (U+10000–U+1007F). -/
def is_syllabogram (c : Char) : Bool := 0x10000 ≤ c.toNat ∧ c.toNat ≤ 0x1007F

/-- Linear B ideogram range check (U+10080–U+100FA). -/
def is_logogram (c : Char) : Bool := 0x10080 ≤ c.toNat ∧ c.toNat ≤ 0x100FA

/-- The delimiter set built in `LinearBTokenizer.__init__`: raised dot,
the two vertical-bar dividers, space, newline, tab. -/
def delimiterChars : List Char := ['⸱', '𐄀', '𐄁', ' ', '\n', '\t']

/-- Python `char.isdigit()`, modelled on the decimal digits this program
meets (the ASCII digits; no other Unicode digit occurs in its inputs). -/
def pyIsDigit (c : Char) : Bool := '0' ≤ c ∧ c ≤ '9'

/-- Classification order of `LinearBTokenizer.tokenize`: syllabogram,
logogram, newline, delimiter, digit, unknown. -/
def classifyChar (c : Char) : TokenType :=
  if is_syllabogram c then .SYLLABOGRAM
  else if is_logogram c then .LOGOGRAM
  else if c = '\n' then .LINE_BREAK
  else if delimiterChars.contains c then .WORD_DIVIDER
  else if pyIsDigit c then .NUMBER
  else .UNKNOWN

/-- `LinearBTokenizer.tokenize`: classify every code point with its offset. -/
def tokenize (text : List Char) : List Token :=
  (text.enum).map (fun ic =>
    { char := ic.2, type := classifyChar ic.2, position := ic.1 })

/-- One step of the `segment_words` loop.  State: completed words so far and
the word in progress.  A NUMBER token consults `words[-1][-1]` — the last
token of the last *completed* word — and attaches to that word when it is a
logogram; every completed word is non-empty, so the Python double indexing
cannot fail (see `segStep_words_nonempty`). -/
def segStep (st : List (List Token) × List Token) (t : Token) :
    List (List Token) × List Token :=
  match t.type with
  | .SYLLABOGRAM => (st.1, st.2 ++ [t])
  | .WORD_DIVIDER | .LINE_BREAK =>
    if st.2 ≠ [] then (st.1 ++ [st.2], []) else st
  | .LOGOGRAM =>
    if st.2 ≠ [] then (st.1 ++ [st.2] ++ [[t]], [])
    else (st.1 ++ [[t]], [])
  | .NUMBER =>
    match st.1.getLast? with
    | some w =>
      if (w.getLast?.map Token.type) = some TokenType.LOGOGRAM then
        (st.1.dropLast ++ [w ++ [t]], st.2)
      else (st.1 ++ [[t]], st.2)
    | none => (st.1 ++ [[t]], st.2)
  | .UNKNOWN => st

/-- `LinearBTokenizer.segment_words`: fold the steps over the token stream,
then flush a non-empty word in progress. -/
def segment_words (text : List Char) : List (List Token) :=
  let st := (tokenize text).foldl segStep ([], [])
  if st.2 ≠ [] then st.1 ++ [st.2] else st.1

/-! ## Transcriber (`src/backend/core/transcriber.py`) -/

/-- One sign-table entry (`syllabary.json`: only the `transliteration` field
is read). -/
structure SignEntry where
  transliteration : List Char
deriving DecidableEq

/-- `LinearBTranscriber.transcribe_sign`: table lookup, `None` on a miss. -/
def transcribe_sign (syllabary : List (Char × SignEntry)) (sign : Char) :
    Option (List Char) :=
  (syllabary.lookup sign).map (fun e => e.transliteration)

/-- One hexadecimal digit, uppercase. -/
def hexDigit (n : Nat) : Char :=
  if n < 10 then Char.ofNat ('0'.toNat + n) else Char.ofNat ('A'.toNat + n - 10)

/-- Hexadecimal digits of `n`, least significant first. -/
def hexDigitsRev : Nat → List Char
  | 0 => []
  | n + 1 => hexDigit ((n + 1) % 16) :: hexDigitsRev ((n + 1) / 16)
decreasing_by exact Nat.div_lt_self (Nat.succ_pos n) (by omega)

/-- Python `f"{n:04X}"`: uppercase hex, zero-padded to at least four
digits. -/
def hex04X (n : Nat) : List Char :=
  let ds := if n = 0 then ['0'] else (hexDigitsRev n).reverse
  List.replicate (4 - ds.length) '0' ++ ds

/-- The inline placeholder `f"[?{token.char}]"` for a sign the table cannot
transliterate. -/
def unknownSignPlaceholder (c : Char) : List Char :=
  '[' :: '?' :: c :: [']']

/-- `LinearBTranscriber.transcribe_word`: syllabograms map through the sign
table (`if trans:` is a Python truthiness test, so a `None` result *or an
empty transliteration* renders as the placeholder); logograms render as a
`*`-prefixed 4-digit hex code point tag; other tokens contribute nothing;
the pieces join with hyphens. -/
def transcribe_word (syllabary : List (Char × SignEntry))
    (word_tokens : List Token) : List Char :=
  let syllables := word_tokens.foldl (fun acc t =>
    match t.type with
    | .SYLLABOGRAM =>
      match transcribe_sign syllabary t.char with
      | some tr =>
        if tr ≠ [] then acc ++ [tr]
        else acc ++ [unknownSignPlaceholder t.char]
      | none => acc ++ [unknownSignPlaceholder t.char]
    | .LOGOGRAM => acc ++ ['*' :: hex04X t.char.toNat]
    | _ => acc) []
  hyphenJoin syllables

/-! ## Diachronic phonology engine (`src/core/phonology.py`) -/

/-- `ChangeType` of `phonology.py`. -/
inductive ChangeType where
  | LOSS | MERGER | SPLIT | LENITION | COMPENSATORY_LENGTHENING | ASSIMILATION
deriving DecidableEq

/-- `SoundChange` of `phonology.py`.  `source` and `target` are manipulated
as strings; the remaining fields are carried as labels. -/
structure SoundChange where
  name : String
  source : List Char
  target : List Char
  environment : String
  period : String
  change_type : ChangeType
  description : String
  examples : List (List Char × List Char) := []
deriving DecidableEq

/-- The vowel set of `PhonologyEngine._is_intervocalic` (`'aeiouāēīōū'`). -/
def phonologyVowels : List Char := "aeiouāēīōū".data

/-- `PhonologyEngine._is_intervocalic`: the first occurrence of the segment
must have a vowel directly before and directly after it. -/
def is_intervocalic (word segment : List Char) : Bool :=
  match pyFind segment word with
  | none => false
  | some idx =>
    if 0 < idx ∧ idx + segment.length < word.length then
      phonologyVowels.contains (word.getD (idx - 1) ' ') &&
      phonologyVowels.contains (word.getD (idx + segment.length) ' ')
    else false

/-- `PhonologyEngine._rule_applies`: the word-initial environment needs the
source to open the current form but no longer open the target; word-final is
the mirror; intervocalic needs a vowel-flanked occurrence in the current
form; any other environment needs the source present in the current form and
absent from the target. -/
def rule_applies (current target : List Char) (rule : SoundChange) : Bool :=
  let source := stripSep rule.source
  if rule.environment = "#_" then
    source.isPrefixOf current && !(source.isPrefixOf target)
  else if rule.environment = "_#" then
    source.isSuffixOf current && !(source.isSuffixOf target)
  else if rule.environment = "V_V" then
    containsSub source current && is_intervocalic current source
  else
    containsSub source current && !(containsSub source target)

/-- `PhonologyEngine._apply_rule`: a `∅` target deletes — anchored at the
start or end for the positional environments (Python `form[:-len(source)]`
with an empty source yields the empty string), on every occurrence otherwise;
any other target substitutes every occurrence. -/
def apply_rule (form : List Char) (rule : SoundChange) : List Char :=
  let source := stripSep rule.source
  let target := stripSep rule.target
  if target = ['∅'] then
    if rule.environment = "#_" then
      if source.isPrefixOf form then form.drop source.length else form
    else if rule.environment = "_#" then
      if source.isSuffixOf form then
        (if source = [] then [] else form.take (form.length - source.length))
      else form
    else pyReplace form source []
  else pyReplace form source target

/-- The rule-scanning loop of `apply_changes`, with the loop state made
explicit: scan the rules once in order; when a rule fires against the current
form and the fixed (raw) classical target and its application
(`new_form = self._apply_rule(current_form, rule)`) changes the form, record
the pair (new form, rule) and continue from the new form.  Returns the final
form and the recorded pairs in application order. -/
def changesLoop (classicalRaw : List Char) :
    List SoundChange → List Char → List Char × List (List Char × SoundChange)
  | [], current => (current, [])
  | rule :: rest, current =>
    if rule_applies current classicalRaw rule then
      if apply_rule current rule ≠ current then
        ((changesLoop classicalRaw rest (apply_rule current rule)).1,
          (apply_rule current rule, rule) ::
            (changesLoop classicalRaw rest (apply_rule current rule)).2)
      else changesLoop classicalRaw rest current
    else changesLoop classicalRaw rest current

/-- `DiachronicPath` of `phonology.py`: stages are
(form, period, change-name) triples. -/
structure DiachronicPath where
  mycenaean : List Char
  classical : List Char
  intermediate_stages : List (List Char × String × String)
  changes_applied : List SoundChange
deriving DecidableEq

/-- `PhonologyEngine.apply_changes`: normalize the Mycenaean form (strip
separators, lowercase) and lowercase the classical form; open the stage list
with the Mycenaean stage; run the single rule scan (the predicate sees the
*raw* classical argument); close with the Classical stage. -/
def apply_changes (rules : List SoundChange)
    (mycenaean_form classical_form : List Char) : DiachronicPath :=
  let myc := pyLower (stripSep mycenaean_form)
  let clas := pyLower classical_form
  let t := changesLoop classical_form rules myc
  { mycenaean := myc
    classical := clas
    intermediate_stages :=
      (myc, "1450-1200 BCE", "Mycenaean Greek (attested)") ::
        t.2.map (fun p => (p.1, p.2.period, p.2.name)) ++
        [(clas, "800-400 BCE", "Classical Greek")]
    changes_applied := t.2.map (fun p => p.2) }

/-! ## Lemmas about the stable sort -/

/-- The sortedness relation for a descending sort on a key. -/
def keyGE {α β : Type} [LinearOrder β] (key : α → β) (a b : α) : Prop :=
  key b ≤ key a

theorem mem_insertDescBy {α β : Type} [LinearOrder β] (key : α → β)
    (x z : α) (l : List α) (hz : z ∈ insertDescBy key x l) :
    z = x ∨ z ∈ l := by
  induction l with
  | nil => simpa [insertDescBy] using hz
  | cons y rest ih =>
    by_cases hxy : key x ≤ key y
    · simp only [insertDescBy, if_pos hxy, List.mem_cons] at hz
      rcases hz with hz | hz
      · exact Or.inr (by simp [hz])
      · rcases ih hz with hz | hz
        · exact Or.inl hz
        · exact Or.inr (by simp [hz])
    · simp only [insertDescBy, if_neg hxy, List.mem_cons] at hz
      rcases hz with hz | hz | hz
      · exact Or.inl hz
      · exact Or.inr (by simp [hz])
      · exact Or.inr (by simp [hz])

theorem insertDescBy_pairwise {α β : Type} [LinearOrder β] (key : α → β)
    (x : α) (l : List α) (h : l.Pairwise (keyGE key)) :
    (insertDescBy key x l).Pairwise (keyGE key) := by
  induction l with
  | nil => simp [insertDescBy, keyGE]
  | cons y rest ih =>
    rcases List.pairwise_cons.mp h with ⟨hy, hrest⟩
    by_cases hxy : key x ≤ key y
    · simp only [insertDescBy, if_pos hxy]
      refine List.pairwise_cons.mpr ⟨?_, ih hrest⟩
      intro z hz
      rcases mem_insertDescBy key x z rest hz with hz | hz
      · subst hz; exact hxy
      · exact hy z hz
    · simp only [insertDescBy, if_neg hxy]
      refine List.pairwise_cons.mpr ⟨?_, h⟩
      intro z hz
      rcases List.mem_cons.mp hz with hz | hz
      · subst hz; exact le_of_not_le hxy
      · exact le_trans (hy z hz) (le_of_not_le hxy)

theorem insertDescBy_length {α β : Type} [LinearOrder β] (key : α → β)
    (x : α) (l : List α) :
    (insertDescBy key x l).length = l.length + 1 := by
  induction l with
  | nil => simp [insertDescBy]
  | cons y rest ih =>
    by_cases hxy : key x ≤ key y <;>
      simp [insertDescBy, hxy, ih]

theorem sortOnDesc_pairwise {α β : Type} [LinearOrder β] (key : α → β)
    (l : List α) : (sortOnDesc key l).Pairwise (keyGE key) := by
  suffices h : ∀ acc : List α, acc.Pairwise (keyGE key) →
      (l.foldl (fun acc x => insertDescBy key x acc) acc).Pairwise (keyGE key) by
    exact h [] (by simp)
  induction l with
  | nil => intro acc hacc; simpa using hacc
  | cons x rest ih =>
    intro acc hacc
    exact ih _ (insertDescBy_pairwise key x acc hacc)

theorem sortOnDesc_length {α β : Type} [LinearOrder β] (key : α → β)
    (l : List α) : (sortOnDesc key l).length = l.length := by
  suffices h : ∀ acc : List α,
      (l.foldl (fun acc x => insertDescBy key x acc) acc).length =
        acc.length + l.length by
    simpa using h []
  induction l with
  | nil => intro acc; simp
  | cons x rest ih =>
    intro acc
    simp only [List.foldl_cons, List.length_cons]
    rw [ih, insertDescBy_length]
    omega

theorem insertDescBy_of_ge {α β : Type} [LinearOrder β] (key : α → β)
    (x : α) (l : List α) (h : ∀ a ∈ l, key x ≤ key a) :
    insertDescBy key x l = l ++ [x] := by
  induction l with
  | nil => simp [insertDescBy]
  | cons y rest ih =>
    have hy : key x ≤ key y := h y (by simp)
    simp only [insertDescBy, if_pos hy, List.cons_append, List.cons.injEq,
      true_and]
    exact ih (fun a ha => h a (by simp [ha]))

theorem sortOnDesc_of_pairwise {α β : Type} [LinearOrder β] (key : α → β)
    (l : List α) (h : l.Pairwise (keyGE key)) : sortOnDesc key l = l := by
  suffices hgen : ∀ (l acc : List α), (acc ++ l).Pairwise (keyGE key) →
      l.foldl (fun acc x => insertDescBy key x acc) acc = acc ++ l by
    simpa using hgen l [] (by simpa using h)
  intro l
  induction l with
  | nil => intro acc _; simp
  | cons x rest ih =>
    intro acc hacc
    have hx : ∀ a ∈ acc, key x ≤ key a := by
      intro a ha
      have := (List.pairwise_append.mp hacc).2.2
      exact this a ha x (by simp)
    simp only [List.foldl_cons]
    rw [insertDescBy_of_ge key x acc hx, ih (acc ++ [x]) (by simpa using hacc)]
    simp

/-! ## Claims about the morphological segmenter -/

/-- The descending-confidence relation on analyses. -/
abbrev confGE : MorphologicalAnalysis → MorphologicalAnalysis → Prop :=
  keyGE (fun a => a.confidence)

theorem sortConf_ne_nil_and_pairwise (Y : List MorphologicalAnalysis)
    (hY : Y ≠ []) :
    sortOnDesc (fun a => a.confidence) Y ≠ [] ∧
      (sortOnDesc (fun a => a.confidence) Y).Pairwise confGE := by
  constructor
  · intro hc
    apply hY
    have hlen := sortOnDesc_length (fun a => a.confidence) Y
    rw [hc] at hlen
    exact List.length_eq_zero.mp hlen.symm
  · exact sortOnDesc_pairwise (fun a => a.confidence) Y

/-- C6: for every input word — found in the lexicon or not, with or without a
recognized ending — `segment_word` returns a non-empty list of analyses whose
confidences are non-increasing.  (The final `sorted(..., reverse=True)` is the
stable sort `sortOnDesc`, so equal-confidence analyses keep their emission
order by construction.) -/
theorem segment_word_nonempty_sorted (lexicon : List (List Char × LexEntry))
    (endingMap : EndingMap) (w : List Char) :
    segment_word lexicon endingMap w ≠ [] ∧
      (segment_word lexicon endingMap w).Pairwise
        (fun a b => b.confidence ≤ a.confidence) := by
  unfold segment_word
  cases lexicon.lookup w with
  | some entry =>
    unfold analyzeKnownWord
    apply sortConf_ne_nil_and_pairwise
    split <;> simp_all
  | none =>
    unfold segmentUnknownWord
    apply sortConf_ne_nil_and_pairwise
    split <;> simp_all

/-- C6 witness at a concrete lexicon, ending map and word. -/
theorem segment_word_nonempty_sorted_witness :
    segment_word [] [("o".data, [{ caseName := some "nominative".data }])]
        "wa-na-ko".data ≠ [] ∧
      (segment_word [] [("o".data, [{ caseName := some "nominative".data }])]
        "wa-na-ko".data).Pairwise (fun a b => b.confidence ≤ a.confidence) :=
  segment_word_nonempty_sorted [] [("o".data, [{ caseName := some "nominative".data }])]
    "wa-na-ko".data

theorem emitted_pairwise (endingMap : EndingMap) (normalized : List Char) :
    (emitUnknownAnalyses endingMap normalized).Pairwise confGE := by
  unfold emitUnknownAnalyses
  rw [List.pairwise_flatMap]
  constructor
  · intro em _
    split
    · rw [List.pairwise_map]
      refine List.pairwise_of_forall ?_
      intro a b
      simp [keyGE]
    · simp
  · have hsorted := sortOnDesc_pairwise (fun em => em.1.length) endingMap
    refine hsorted.imp ?_
    intro em1 em2 hle x hx y hy
    split at hx
    case isFalse => simp at hx
    split at hy
    case isFalse => simp at hy
    rcases List.mem_map.mp hx with ⟨i1, _, hx⟩
    rcases List.mem_map.mp hy with ⟨i2, _, hy⟩
    subst hx hy
    simp only [confGE, keyGE] at hle ⊢
    by_cases h2 : 2 ≤ em2.1.length
    · have h1 : 2 ≤ em1.1.length := le_trans h2 hle
      simp [h1, h2]
    · by_cases h1 : 2 ≤ em1.1.length
      · simp only [h1, h2, if_true, if_false]
        decide
      · simp [h1, h2]

/-- C5: for every word absent from the lexicon, `segment_word` returns
exactly the claim's emission: every registered ending tried longest-first
with ties in registration order, splits leaving a stem shorter than 2
characters skipped, one analysis per matching reading at confidence 0.6
(ending length ≥ 2) or 0.4, and — when nothing matches — exactly one
fallback analysis at confidence 0.1 with empty ending and the whole
normalized form as stem.  In particular the final confidence sort never
reorders the emission. -/
theorem segment_word_unknown_spec (lexicon : List (List Char × LexEntry))
    (endingMap : EndingMap) (w : List Char)
    (h : lexicon.lookup w = none) :
    segment_word lexicon endingMap w =
      unknownAnalysesSpec endingMap (stripSep w) := by
  unfold segment_word
  rw [h]
  unfold segmentUnknownWord unknownAnalysesSpec
  have hpw := emitted_pairwise endingMap (stripSep w)
  by_cases he : emitUnknownAnalyses endingMap (stripSep w) = []
  · rw [if_pos he]
    simp only [he, List.isEmpty_nil, if_true]
    rfl
  · have hne : (emitUnknownAnalyses endingMap (stripSep w)).isEmpty = false := by
      simpa [List.isEmpty_iff] using he
    rw [if_neg he]
    simp only [hne, Bool.false_eq_true, if_false]
    exact sortOnDesc_of_pairwise (fun a : MorphologicalAnalysis => a.confidence) _ hpw

/-- C5 witness: a concrete unknown word against a concrete ending index. -/
theorem segment_word_unknown_spec_witness :
    segment_word [] [("o".data, [{ caseName := some "nominative".data }]),
        ("jo".data, [{ caseName := some "genitive".data }])]
      "wa-na-ka-jo".data =
      unknownAnalysesSpec [("o".data, [{ caseName := some "nominative".data }]),
        ("jo".data, [{ caseName := some "genitive".data }])]
      (stripSep "wa-na-ka-jo".data) :=
  segment_word_unknown_spec [] _ _ rfl

/-! ## Claims about the diachronic phonology engine -/

/-- A placeholder rule used only to seed the chain statement below; its
fields are never read. -/
def placeholderRule : SoundChange :=
  { name := "", source := [], target := [], environment := "", period := ""
    change_type := ChangeType.LOSS, description := "" }

/-- The step relation of one applied rule in the scan: the rule fired against
the running form and the fixed classical target, its application produced the
next form, and that application actually changed the form. -/
def appliedStep (classicalRaw : List Char)
    (a b : List Char × SoundChange) : Prop :=
  rule_applies a.1 classicalRaw b.2 = true ∧
    b.1 = apply_rule a.1 b.2 ∧ b.1 ≠ a.1

theorem changesLoop_sublist (classicalRaw : List Char)
    (rules : List SoundChange) (current : List Char) :
    ((changesLoop classicalRaw rules current).2.map (fun p => p.2)).Sublist
      rules := by
  induction rules generalizing current with
  | nil => simp [changesLoop]
  | cons rule rest ih =>
    unfold changesLoop
    by_cases hfire : rule_applies current classicalRaw rule
    · rw [if_pos hfire]
      by_cases hch : apply_rule current rule ≠ current
      · rw [if_pos hch]
        exact List.Sublist.cons₂ rule (ih (apply_rule current rule))
      · rw [if_neg hch]
        exact List.Sublist.cons rule (ih current)
    · rw [if_neg hfire]
      exact List.Sublist.cons rule (ih current)

theorem changesLoop_chain (classicalRaw : List Char)
    (rules : List SoundChange) (current : List Char) (r0 : SoundChange) :
    List.Chain' (appliedStep classicalRaw)
      ((current, r0) :: (changesLoop classicalRaw rules current).2) := by
  induction rules generalizing current r0 with
  | nil => simp [changesLoop]
  | cons rule rest ih =>
    unfold changesLoop
    by_cases hfire : rule_applies current classicalRaw rule
    · rw [if_pos hfire]
      by_cases hch : apply_rule current rule ≠ current
      · rw [if_pos hch]
        exact List.Chain'.cons ⟨hfire, rfl, hch⟩ (ih (apply_rule current rule) rule)
      · rw [if_neg hch]
        exact ih current r0
    · rw [if_neg hfire]
      exact ih current r0

/-- C4: `apply_changes` first normalizes the Mycenaean form (separators
stripped, lowercased), opens the stage list with the Mycenaean stage, scans
the rule table exactly once in authored order (the applied rules are a
sublist of the table, each firing against the running form and the fixed
classical target), appends a stage exactly when an application changed the
form (one stage per applied rule, carrying that rule's period and name), and
closes with the Classical stage; the applied-rules list is exactly the rules
that produced a stage, in application order. -/
theorem apply_changes_single_pass (rules : List SoundChange)
    (myc clas : List Char) :
    (apply_changes rules myc clas).mycenaean = pyLower (stripSep myc) ∧
    (apply_changes rules myc clas).classical = pyLower clas ∧
    (apply_changes rules myc clas).intermediate_stages.head? =
      some (pyLower (stripSep myc), "1450-1200 BCE",
        "Mycenaean Greek (attested)") ∧
    (apply_changes rules myc clas).intermediate_stages.getLast? =
      some (pyLower clas, "800-400 BCE", "Classical Greek") ∧
    (apply_changes rules myc clas).intermediate_stages =
      (pyLower (stripSep myc), "1450-1200 BCE", "Mycenaean Greek (attested)") ::
        (changesLoop clas rules (pyLower (stripSep myc))).2.map
          (fun p => (p.1, p.2.period, p.2.name)) ++
        [(pyLower clas, "800-400 BCE", "Classical Greek")] ∧
    (apply_changes rules myc clas).changes_applied =
      (changesLoop clas rules (pyLower (stripSep myc))).2.map (fun p => p.2) ∧
    (apply_changes rules myc clas).intermediate_stages.length =
      (apply_changes rules myc clas).changes_applied.length + 2 ∧
    (apply_changes rules myc clas).changes_applied.Sublist rules ∧
    List.Chain' (appliedStep clas)
      ((pyLower (stripSep myc), placeholderRule) ::
        (changesLoop clas rules (pyLower (stripSep myc))).2) := by
  refine ⟨rfl, rfl, rfl, ?_, rfl, rfl, ?_, ?_, ?_⟩
  · show (List.cons _ _ ++ [_]).getLast? = _
    rw [List.getLast?_concat]
  · simp [apply_changes]
  · exact changesLoop_sublist clas rules (pyLower (stripSep myc))
  · exact changesLoop_chain clas rules (pyLower (stripSep myc)) placeholderRule

/-! ## Claims about syllabification stability -/

/-- A consonant+vowel syllable whose consonant is a real consonant (not the
separator, which `_is_consonant` also classifies as a consonant). -/
def cvSyllable (s : List Char) : Bool :=
  match s with
  | [c, v] => isConsonant c && !(isConsonant v) && c ≠ '-'
  | _ => false

/-- A bare-vowel syllable. -/
def vSyllable (s : List Char) : Bool :=
  match s with
  | [v] => !(isConsonant v)
  | _ => false

/-- The syllable shapes under which re-syllabification is stable: every
syllable is consonant+vowel, except that the first may instead be a bare
vowel. -/
def cvShape (syls : List (List Char)) : Bool :=
  match syls with
  | [] => true
  | s0 :: rest => (cvSyllable s0 || vSyllable s0) && rest.all cvSyllable

/-- Adjacent characters that the geminate-removal loop leaves in place. -/
def noGemAdj (a b : Char) : Prop := ¬ (a = b ∧ isConsonant a = true)

theorem removeGeminates_of_chain (l : List Char)
    (h : List.Chain' noGemAdj l) : removeGeminates l = l := by
  induction l with
  | nil => rfl
  | cons a tail ih =>
    cases tail with
    | nil => rfl
    | cons b rest =>
      rcases List.chain'_cons.mp h with ⟨hab, htail⟩
      unfold removeGeminates
      rw [if_neg hab]
      rw [ih htail]

theorem chain_dash_join (syls : List (List Char))
    (h : syls.all cvSyllable = true) :
    List.Chain' noGemAdj ('-' :: hyphenJoin syls) := by
  induction syls with
  | nil => simp [hyphenJoin]
  | cons s rest ih =>
    simp only [List.all_cons, Bool.and_eq_true] at h
    obtain ⟨hs, hrest⟩ := h
    match s, hs with
    | [c, v], hs =>
      simp only [cvSyllable, Bool.and_eq_true, bne_iff_ne, decide_eq_true_eq,
        Bool.not_eq_true'] at hs
      obtain ⟨⟨hc, hv⟩, hne⟩ := hs
      have hcv : noGemAdj c v := by
        rintro ⟨rfl, _⟩
        rw [hc] at hv
        exact absurd hv (by simp)
      have hdc : noGemAdj '-' c := by
        rintro ⟨hdc, _⟩
        exact hne hdc.symm
      cases rest with
      | nil =>
        simp only [hyphenJoin]
        exact List.chain'_cons.mpr ⟨hdc, List.chain'_cons.mpr ⟨hcv, by simp⟩⟩
      | cons s2 rest2 =>
        show List.Chain' noGemAdj ('-' :: ([c, v] ++ '-' :: hyphenJoin (s2 :: rest2)))
        have hvd : noGemAdj v '-' := by
          rintro ⟨rfl, hcons⟩
          rw [hv] at hcons
          exact absurd hcons (by simp)
        simp only [List.cons_append, List.nil_append]
        exact List.chain'_cons.mpr ⟨hdc, List.chain'_cons.mpr ⟨hcv,
          List.chain'_cons.mpr ⟨hvd, by simpa using ih hrest⟩⟩⟩

theorem chain_join (syls : List (List Char)) (h : cvShape syls = true) :
    List.Chain' noGemAdj (hyphenJoin syls) := by
  match syls with
  | [] => simp [hyphenJoin]
  | s0 :: rest =>
    simp only [cvShape, Bool.and_eq_true, Bool.or_eq_true] at h
    obtain ⟨hs0, hrest⟩ := h
    have htail := chain_dash_join rest hrest
    rcases hs0 with hs0 | hs0
    · match s0, hs0 with
      | [c, v], hs0 =>
        simp only [cvSyllable, Bool.and_eq_true, bne_iff_ne, decide_eq_true_eq,
          Bool.not_eq_true'] at hs0
        obtain ⟨⟨hc, hv⟩, _⟩ := hs0
        have hcv : noGemAdj c v := by
          rintro ⟨rfl, _⟩
          rw [hc] at hv
          exact absurd hv (by simp)
        cases rest with
        | nil =>
          exact List.chain'_cons.mpr ⟨hcv, by simp⟩
        | cons s2 rest2 =>
          show List.Chain' noGemAdj ([c, v] ++ '-' :: hyphenJoin (s2 :: rest2))
          have hvd : noGemAdj v '-' := by
            rintro ⟨rfl, hcons⟩
            rw [hv] at hcons
            exact absurd hcons (by simp)
          simp only [List.cons_append, List.nil_append]
          exact List.chain'_cons.mpr ⟨hcv, List.chain'_cons.mpr ⟨hvd, htail⟩⟩
    · match s0, hs0 with
      | [v], hs0 =>
        simp only [vSyllable, Bool.not_eq_true'] at hs0
        cases rest with
        | nil => simp [hyphenJoin]
        | cons s2 rest2 =>
          show List.Chain' noGemAdj ([v] ++ '-' :: hyphenJoin (s2 :: rest2))
          have hvd : noGemAdj v '-' := by
            rintro ⟨rfl, hcons⟩
            rw [hs0] at hcons
            exact absurd hcons (by simp)
          simp only [List.cons_append, List.nil_append]
          exact List.chain'_cons.mpr ⟨hvd, htail⟩

theorem syllabLoop_dash_join (syls : List (List Char)) (hne : syls ≠ [])
    (h : syls.all cvSyllable = true) :
    syllabLoop ('-' :: hyphenJoin syls) = syls := by
  induction syls with
  | nil => exact absurd rfl hne
  | cons s rest ih =>
    simp only [List.all_cons, Bool.and_eq_true] at h
    obtain ⟨hs, hrest⟩ := h
    match s, hs with
    | [c, v], hs =>
      simp only [cvSyllable, Bool.and_eq_true, bne_iff_ne, decide_eq_true_eq,
        Bool.not_eq_true'] at hs
      obtain ⟨⟨hc, hv⟩, _⟩ := hs
      have hdashCons : isConsonant '-' = true := by decide
      cases rest with
      | nil =>
        show syllabLoop ['-', c, v] = [[c, v]]
        unfold syllabLoop
        rw [if_neg (by simp [hdashCons, hc]), if_neg (by simp [hdashCons])]
        simp [hv, syllabLoop]
      | cons s2 rest2 =>
        show syllabLoop ('-' :: ([c, v] ++ '-' :: hyphenJoin (s2 :: rest2))) =
          [c, v] :: s2 :: rest2
        simp only [List.cons_append, List.nil_append]
        unfold syllabLoop
        rw [if_neg (by simp [hdashCons, hc]), if_neg (by simp [hdashCons])]
        simp only [hv, Bool.false_eq_true, not_false_eq_true, if_true]
        rw [ih (by simp) hrest]

/-- Re-syllabifying the hyphen-joined string of a CV-shaped syllable list
reproduces the syllable list. -/
theorem syllabLoop_join (syls : List (List Char)) (h : cvShape syls = true) :
    syllabLoop (hyphenJoin syls) = syls := by
  match syls with
  | [] => rfl
  | s0 :: rest =>
    simp only [cvShape, Bool.and_eq_true, Bool.or_eq_true] at h
    obtain ⟨hs0, hrest⟩ := h
    rcases hs0 with hs0 | hs0
    · match s0, hs0 with
      | [c, v], hs0 =>
        simp only [cvSyllable, Bool.and_eq_true, bne_iff_ne, decide_eq_true_eq,
          Bool.not_eq_true'] at hs0
        obtain ⟨⟨hc, hv⟩, _⟩ := hs0
        cases rest with
        | nil =>
          show syllabLoop [c, v] = [[c, v]]
          unfold syllabLoop
          rw [if_pos (by simp [hc, hv])]
          rfl
        | cons s2 rest2 =>
          show syllabLoop ([c, v] ++ '-' :: hyphenJoin (s2 :: rest2)) =
            [c, v] :: s2 :: rest2
          simp only [List.cons_append, List.nil_append]
          unfold syllabLoop
          rw [if_pos (by simp [hc, hv])]
          rw [syllabLoop_dash_join (s2 :: rest2) (by simp) hrest]
    · match s0, hs0 with
      | [v], hs0 =>
        simp only [vSyllable, Bool.not_eq_true'] at hs0
        cases rest with
        | nil =>
          show syllabLoop [v] = [[v]]
          unfold syllabLoop
          simp [hs0]
        | cons s2 rest2 =>
          show syllabLoop ([v] ++ '-' :: hyphenJoin (s2 :: rest2)) =
            [v] :: s2 :: rest2
          simp only [List.cons_append, List.nil_append]
          unfold syllabLoop
          have hdashCons : isConsonant '-' = true := by decide
          rw [if_neg (by simp [hs0]), if_pos (by simp [hs0])]
          rw [syllabLoop_dash_join (s2 :: rest2) (by simp) hrest]

/-- C7 (amended): re-syllabification is stable for every form whose
orthography+syllabify output consists of consonant+vowel syllables, with at
most an initial bare-vowel syllable.  (The unamended claim — stability for
*every* form passed through the chain — fails; see the counterexample.) -/
theorem syllabify_restable (form : List Char) (syls : List (List Char))
    (hshape : cvShape syls = true)
    (heq : syllabify (applyOrthographicRules form) = hyphenJoin syls) :
    syllabify (syllabify (applyOrthographicRules form)) =
      syllabify (applyOrthographicRules form) := by
  rw [heq]
  unfold syllabify
  by_cases hj : hyphenJoin syls = []
  · rw [if_pos hj]
  · rw [if_neg hj,
      removeGeminates_of_chain (hyphenJoin syls) (chain_join syls hshape),
      syllabLoop_join syls hshape]

/-- C7 counterexample: the form `ao` passes through the orthography rules
unchanged and syllabifies to `a-o`, but re-syllabifying `a-o` yields `a--o`
(the separator, classified as a consonant, is glued to the following vowel as
a CV syllable), so the claim as stated — stability for every form passed
through the chain — is false.  `generate_verb_paradigm` produces such forms,
e.g. `do-ō` for root `do`. -/
theorem syllabify_restable_counterexample :
    syllabify (applyOrthographicRules ['a', 'o']) = ['a', '-', 'o'] ∧
    syllabify (syllabify (applyOrthographicRules ['a', 'o'])) ≠
      syllabify (applyOrthographicRules ['a', 'o']) := by decide

/-- C7 witness: the amended theorem applied to the concrete form `wanaka`,
whose syllabification `wa-na-ka` is CV-shaped. -/
theorem syllabify_restable_witness :
    syllabify (syllabify (applyOrthographicRules "wanaka".data)) =
      syllabify (applyOrthographicRules "wanaka".data) :=
  syllabify_restable "wanaka".data [['w', 'a'], ['n', 'a'], ['k', 'a']]
    (by decide) (by decide)

/-! ## Claims about the paradigm generator -/

/-- C1: the class body of `ParadigmGenerator` never defines `_syllabify`,
`generate_verb_paradigm`, `_apply_verb_ending` or `generate_all_forms` — the
first is dedented to module level (`generator.py` line 252) and the other
three are nested, unreachable, inside it.  Hence `self._syllabify(lb_form)`
in `_apply_ending` raises `AttributeError` on every
`generate_noun_paradigm` call, and `generate_all_forms` /
`generate_verb_paradigm` do not exist as methods at all, contradicting the
claimed totality (and the module's own doctests and `test_generator`). -/
theorem generator_class_missing_methods :
    "_syllabify" ∉ paradigmGeneratorClassAttrs ∧
    "generate_verb_paradigm" ∉ paradigmGeneratorClassAttrs ∧
    "_apply_verb_ending" ∉ paradigmGeneratorClassAttrs ∧
    "generate_all_forms" ∉ paradigmGeneratorClassAttrs := by decide

/-! ## Claims about the tokenizer -/

theorem segStep_preserves_nonempty (st : List (List Token) × List Token)
    (t : Token) (h : ∀ w ∈ st.1, w ≠ []) :
    ∀ w ∈ (segStep st t).1, w ≠ [] := by
  intro w hw
  unfold segStep at hw
  rcases t with ⟨c, ty, pos⟩
  cases ty with
  | SYLLABOGRAM => exact h w hw
  | WORD_DIVIDER =>
    dsimp at hw
    split at hw
    · rcases List.mem_append.mp hw with hw | hw
      · exact h w hw
      · simp_all
    · exact h w hw
  | LINE_BREAK =>
    dsimp at hw
    split at hw
    · rcases List.mem_append.mp hw with hw | hw
      · exact h w hw
      · simp_all
    · exact h w hw
  | LOGOGRAM =>
    dsimp at hw
    split at hw
    · rcases List.mem_append.mp hw with hw | hw
      · rcases List.mem_append.mp hw with hw | hw
        · exact h w hw
        · simp_all
      · simp only [List.mem_singleton] at hw
        simp [hw]
    · rcases List.mem_append.mp hw with hw | hw
      · exact h w hw
      · simp only [List.mem_singleton] at hw
        simp [hw]
  | NUMBER =>
    dsimp at hw
    split at hw
    case h_1 wlast heq =>
      split at hw
      · rcases List.mem_append.mp hw with hw | hw
        · exact h w (List.Sublist.subset (List.dropLast_sublist st.1) hw)
        · simp only [List.mem_singleton] at hw
          subst hw
          have : wlast ≠ [] := h wlast (List.mem_of_mem_getLast? heq)
          simp
      · rcases List.mem_append.mp hw with hw | hw
        · exact h w hw
        · simp only [List.mem_singleton] at hw
          simp [hw]
    case h_2 =>
      rcases List.mem_append.mp hw with hw | hw
      · exact h w hw
      · simp only [List.mem_singleton] at hw
        simp [hw]
  | UNKNOWN => exact h w hw

/-- Every word that `segment_words` emits is non-empty, so the Python
`words[-1][-1]` in the NUMBER branch never indexes an empty list. -/
theorem segStep_words_nonempty (text : List Char) :
    ∀ w ∈ segment_words text, w ≠ [] := by
  unfold segment_words
  suffices hfold : ∀ (tks : List Token) (st : List (List Token) × List Token),
      (∀ w ∈ st.1, w ≠ []) → ∀ w ∈ (tks.foldl segStep st).1, w ≠ [] by
    intro w hw
    dsimp only at hw
    split at hw
    · rcases List.mem_append.mp hw with hw | hw
      · exact hfold (tokenize text) ([], []) (by simp) w hw
      · simp only [List.mem_singleton] at hw
        simp_all
    · exact hfold (tokenize text) ([], []) (by simp) w hw
  intro tks
  induction tks with
  | nil => intro st h; exact h
  | cons t rest ih =>
    intro st h
    exact ih (segStep st t) (segStep_preserves_nonempty st t h)

/-- C8 counterexample: in the stream logogram–syllabogram–digit the digit
does *not* occur immediately after a word ending in a logogram (a
syllabogram word is in progress), yet it attaches to the earlier logogram
word instead of forming its own single-token word: the NUMBER branch
consults only the last *completed* word. -/
theorem digit_attachment_counterexample :
    tokenize ['𐂀', '𐀷', '5'] =
      [⟨'𐂀', TokenType.LOGOGRAM, 0⟩, ⟨'𐀷', TokenType.SYLLABOGRAM, 1⟩,
        ⟨'5', TokenType.NUMBER, 2⟩] ∧
    segment_words ['𐂀', '𐀷', '5'] =
      [[⟨'𐂀', TokenType.LOGOGRAM, 0⟩, ⟨'5', TokenType.NUMBER, 2⟩],
        [⟨'𐀷', TokenType.SYLLABOGRAM, 1⟩]] ∧
    [(⟨'5', TokenType.NUMBER, 2⟩ : Token)] ∉
      segment_words ['𐂀', '𐀷', '5'] := by decide

/-- C8 (amended): a Digit token attaches to the most recently *completed*
word exactly when that word ends in a Logogram token — a syllabogram word
still in progress neither blocks the attachment nor receives the digit —
and in every other case the Digit starts its own single-token word, placed
before the in-progress word. -/
theorem digit_step_amended (ws : List (List Token)) (cur : List Token)
    (t : Token) (h : t.type = TokenType.NUMBER) :
    segStep (ws, cur) t =
      (match ws.getLast? with
       | some w =>
         if (w.getLast?.map Token.type) = some TokenType.LOGOGRAM then
           (ws.dropLast ++ [w ++ [t]], cur)
         else (ws ++ [[t]], cur)
       | none => (ws ++ [[t]], cur)) := by
  unfold segStep
  rw [h]

/-- C8 witness: the amended step at a concrete state — a completed
logogram word with a syllabogram word in progress. -/
theorem digit_step_amended_witness :
    segStep ([[⟨'𐂀', TokenType.LOGOGRAM, 0⟩]],
        [⟨'𐀷', TokenType.SYLLABOGRAM, 1⟩]) ⟨'5', TokenType.NUMBER, 2⟩ =
      (match ([[⟨'𐂀', TokenType.LOGOGRAM, 0⟩]] :
          List (List Token)).getLast? with
       | some w =>
         if (w.getLast?.map Token.type) = some TokenType.LOGOGRAM then
           (([[⟨'𐂀', TokenType.LOGOGRAM, 0⟩]] :
              List (List Token)).dropLast ++
             [w ++ [⟨'5', TokenType.NUMBER, 2⟩]],
            [(⟨'𐀷', TokenType.SYLLABOGRAM, 1⟩ : Token)])
         else ([[⟨'𐂀', TokenType.LOGOGRAM, 0⟩], [⟨'5', TokenType.NUMBER, 2⟩]],
            [(⟨'𐀷', TokenType.SYLLABOGRAM, 1⟩ : Token)])
       | none => ([[⟨'𐂀', TokenType.LOGOGRAM, 0⟩], [⟨'5', TokenType.NUMBER, 2⟩]],
            [(⟨'𐀷', TokenType.SYLLABOGRAM, 1⟩ : Token)])) :=
  digit_step_amended [[⟨'𐂀', TokenType.LOGOGRAM, 0⟩]]
    [⟨'𐀷', TokenType.SYLLABOGRAM, 1⟩] ⟨'5', TokenType.NUMBER, 2⟩ rfl

/-! ## Claims about the transcriber -/

/-- C9 counterexample: on a sign absent from the table, `transcribe_sign`
returns `None` — it does not return the marked placeholder (that value is
produced only at word level by `transcribe_word`). -/
theorem transcribe_sign_counterexample :
    transcribe_sign [] 'a' = none ∧
    transcribe_sign [] 'a' ≠ some (unknownSignPlaceholder 'a') := by decide

/-- C9 (amended): `transcribe_sign` is a one-to-one table lookup returning
the entry's transliteration on a hit and `None` on a miss, never failing;
the marked inline placeholder `[?sign]` is produced by `transcribe_word` for
a syllabogram whose lookup misses (or yields an empty transliteration). -/
theorem transcribe_sign_amended :
    (∀ (syllabary : List (Char × SignEntry)) (c : Char) (e : SignEntry),
      syllabary.lookup c = some e →
      transcribe_sign syllabary c = some e.transliteration) ∧
    (∀ (syllabary : List (Char × SignEntry)) (c : Char),
      syllabary.lookup c = none → transcribe_sign syllabary c = none) ∧
    (∀ (syllabary : List (Char × SignEntry)) (t : Token),
      t.type = TokenType.SYLLABOGRAM → transcribe_sign syllabary t.char = none →
      transcribe_word syllabary [t] = unknownSignPlaceholder t.char) := by
  refine ⟨?_, ?_, ?_⟩
  · intro syllabary c e h
    unfold transcribe_sign
    rw [h]
    rfl
  · intro syllabary c h
    unfold transcribe_sign
    rw [h]
    rfl
  · intro syllabary t hty hmiss
    unfold transcribe_word
    rw [List.foldl_cons, List.foldl_nil]
    rw [hty, hmiss]
    rfl

/-- C9 witness: a concrete one-entry table and a sign it does not contain. -/
theorem transcribe_sign_amended_witness :
    transcribe_sign [('𐀷', ⟨"wa".data⟩)] '𐀸' = none ∧
    transcribe_word [('𐀷', ⟨"wa".data⟩)]
        [⟨'𐀸', TokenType.SYLLABOGRAM, 0⟩] = unknownSignPlaceholder '𐀸' :=
  ⟨transcribe_sign_amended.2.1 [('𐀷', ⟨"wa".data⟩)] '𐀸' (by decide),
   transcribe_sign_amended.2.2 [('𐀷', ⟨"wa".data⟩)]
     ⟨'𐀸', TokenType.SYLLABOGRAM, 0⟩ rfl (by decide)⟩

/-! ## Claims about the ending index -/

theorem mapAppend_keys_nonempty (m : EndingMap) (k : List Char)
    (v : EndingInfo) (hm : ∀ e ∈ m, e.1 ≠ []) (hk : k ≠ []) :
    ∀ e ∈ mapAppend m k v, e.1 ≠ [] := by
  induction m with
  | nil =>
    intro e he
    simp only [mapAppend, List.mem_singleton] at he
    simp [he, hk]
  | cons hd tl ih =>
    intro e he
    rcases hd with ⟨k0, vs⟩
    unfold mapAppend at he
    split at he
    · rcases List.mem_cons.mp he with he | he
      · subst he
        exact hm (k0, vs) (by simp)
      · exact hm e (by simp [he])
    · rcases List.mem_cons.mp he with he | he
      · subst he
        exact hm (k0, vs) (by simp)
      · exact ih (fun x hx => hm x (by simp [hx])) e he

theorem endingsFold_keys_nonempty (es : List (List Char))
    (caseNumber : List Char × List Char) (declName : String) (m : EndingMap)
    (hm : ∀ e ∈ m, e.1 ≠ []) :
    ∀ e ∈ es.foldl (fun m2 ending =>
        let cleanEnding := stripNull (stripSep ending)
        if cleanEnding = [] then m2
        else
          mapAppend m2 cleanEnding
            { caseName := some caseNumber.1
              numberName := some caseNumber.2
              declName := some declName }) m, e.1 ≠ [] := by
  induction es generalizing m with
  | nil => exact hm
  | cons ending rest ih =>
    rw [List.foldl_cons]
    by_cases hclean : stripNull (stripSep ending) = []
    · exact ih _ (by simpa [hclean] using hm)
    · refine ih _ ?_
      simp only [hclean, if_neg]
      exact mapAppend_keys_nonempty m _ _ hm hclean

theorem cellsFold_keys_nonempty
    (cells : List (List Char × List (List Char))) (declName : String)
    (acc : Option EndingMap)
    (hacc : ∀ m, acc = some m → ∀ e ∈ m, e.1 ≠ []) :
    ∀ m2, cells.foldl (fun acc cell =>
        match acc with
        | none => none
        | some m1 =>
          match rsplitLastUnderscore cell.1 with
          | none => none
          | some caseNumber =>
            some (cell.2.foldl (fun m2 ending =>
              let cleanEnding := stripNull (stripSep ending)
              if cleanEnding = [] then m2
              else
                mapAppend m2 cleanEnding
                  { caseName := some caseNumber.1
                    numberName := some caseNumber.2
                    declName := some declName }) m1)) acc = some m2 →
      ∀ e ∈ m2, e.1 ≠ [] := by
  induction cells generalizing acc with
  | nil =>
    intro m2 h
    exact hacc m2 h
  | cons cell rest ih =>
    intro m2 h
    rw [List.foldl_cons] at h
    refine ih _ ?_ m2 h
    intro m hm
    cases hx : acc with
    | none => rw [hx] at hm; exact absurd hm (by simp)
    | some m1 =>
      rw [hx] at hm
      cases hsplit : rsplitLastUnderscore cell.1 with
      | none => rw [hsplit] at hm; exact absurd hm (by simp)
      | some caseNumber =>
        rw [hsplit] at hm
        injection hm with hm
        subst hm
        exact endingsFold_keys_nonempty cell.2 caseNumber declName m1
          (hacc m1 hx)

theorem buildFromDeclensions_keys_nonempty
    (decls : List (String × DeclData)) (m : EndingMap)
    (hm : ∀ e ∈ m, e.1 ≠ []) :
    ∀ m2, buildFromDeclensions decls m = some m2 → ∀ e ∈ m2, e.1 ≠ [] := by
  induction decls generalizing m with
  | nil =>
    intro m2 h
    unfold buildFromDeclensions at h
    injection h with h
    subst h
    exact hm
  | cons decl rest ih =>
    intro m2 h
    unfold buildFromDeclensions at h
    rcases decl with ⟨declName, dd⟩
    cases hstep : dd.endings.foldl (fun acc cell =>
        match acc with
        | none => none
        | some m1 =>
          match rsplitLastUnderscore cell.1 with
          | none => none
          | some caseNumber =>
            some (cell.2.foldl (fun m2 ending =>
              let cleanEnding := stripNull (stripSep ending)
              if cleanEnding = [] then m2
              else
                mapAppend m2 cleanEnding
                  { caseName := some caseNumber.1
                    numberName := some caseNumber.2
                    declName := some declName }) m1)) (some m) with
    | none =>
      rw [hstep] at h
      exact absurd h (by simp)
    | some mm =>
      rw [hstep] at h
      refine ih mm ?_ m2 h
      exact cellsFold_keys_nonempty dd.endings declName (some m)
        (fun m0 hm0 => by injection hm0 with hm0; subst hm0; exact hm) mm hstep

theorem caseMarkersFold_keys_nonempty
    (cms : List (List Char × EndingInfo)) (acc : EndingMap)
    (hacc : ∀ e ∈ acc, e.1 ≠ [])
    (hcm : ∀ cm ∈ cms, stripSep cm.1 ≠ []) :
    ∀ e ∈ cms.foldl (fun m cm => mapAppend m (stripSep cm.1) cm.2) acc,
      e.1 ≠ [] := by
  induction cms generalizing acc with
  | nil => exact hacc
  | cons cm rest ih =>
    rw [List.foldl_cons]
    refine ih _ ?_ (fun x hx => hcm x (by simp [hx]))
    exact mapAppend_keys_nonempty acc _ _ hacc (hcm cm (by simp))

/-- C10 counterexample: a paradigm table whose `case_markers` section holds
the all-separator key `"-"` builds an `EndingIndex` keyed on the empty
string — the `case_markers` half of `_build_ending_map` strips separators
without the emptiness check that guards the declension-table half. -/
theorem ending_map_empty_key_counterexample :
    build_ending_map
        { noun_declensions := []
          case_markers := [(['-'], { caseName := some "genitive".data })] } =
      some [(([] : List Char), [{ caseName := some "genitive".data }])] ∧
    ([] : List Char) ∈
      ((build_ending_map
        { noun_declensions := []
          case_markers := [(['-'], { caseName := some "genitive".data })] }).getD
        []).map (fun e => e.1) := by decide

/-- C10 (amended): whenever every `case_markers` key still has a character
after separator stripping, the ending index built at construction time never
keys on the empty string; entries from the declension tables can never
contribute an empty key (the build skips endings that clean to nothing), so
only an all-separator `case_markers` key breaks the invariant. -/
theorem ending_map_keys_nonempty (P : Paradigms) (m : EndingMap)
    (hcm : ∀ cm ∈ P.case_markers, stripSep cm.1 ≠ [])
    (hbuild : build_ending_map P = some m) :
    ∀ e ∈ m, e.1 ≠ [] := by
  unfold build_ending_map at hbuild
  exact buildFromDeclensions_keys_nonempty P.noun_declensions _
    (caseMarkersFold_keys_nonempty P.case_markers [] (by simp) hcm) m hbuild

/-- C10 witness: a table with one genuine case marker and one declension
cell; the amended theorem applied to its first index entry. -/
theorem ending_map_keys_nonempty_witness :
    ("jo".data : List Char) ≠ [] :=
  ending_map_keys_nonempty
    { noun_declensions :=
        [("o_stem_masculine",
          { endings := [("nominative_singular".data, ["-o".data])] })]
      case_markers := [("-jo".data, { caseName := some "genitive".data })] }
    [("jo".data, [{ caseName := some "genitive".data }]),
     ("o".data, [{ caseName := some "nominative".data
                   numberName := some "singular".data
                   declName := some "o_stem_masculine" }])]
    (by decide) (by decide)
    ("jo".data, [{ caseName := some "genitive".data }]) (by decide)

end LinearB
